import Mathlib

/-!
Verification of the anytree tree library core: the node store, the
parent attach/detach protocol, the path resolver and the walker are
shallowly embedded from `src/anytree/__init__.py`, and the spec claims
are settled as theorems about the embedding.

Nodes are identified by natural numbers.  A `State` models the Python
object heap: `par` holds each node's stored `_parent` field, `chl` the
`_children` lists, `nm` the `name` attribute used by the resolver.
-/

structure State where
  par : List (Nat × Option Nat)
  chl : List (Nat × List Nat)
  nm : List (Nat × String)
deriving DecidableEq

/-- Attribute lookup in an association list keyed by node id. -/
def alookup {α : Type} : List (Nat × α) → Nat → Option α
  | [], _ => none
  | (k, v) :: t, n => if k = n then some v else alookup t n

/-- Attribute update: replace the first binding of the key, else append. -/
def updA {α : Type} : List (Nat × α) → Nat → α → List (Nat × α)
  | [], k, v => [(k, v)]
  | (k0, v0) :: t, k, v => if k0 = k then (k, v) :: t else (k0, v0) :: updA t k v

/-- `NodeMixin.parent` getter: the stored `_parent`, `None` when absent. -/
def parentOf (st : State) (n : Nat) : Option Nat := (alookup st.par n).getD none

/-- `NodeMixin._children`: the stored children list, `[]` when absent. -/
def childrenOf (st : State) (n : Nat) : List Nat := (alookup st.chl n).getD []

/-- The node attribute the default resolver matches on (`name`). -/
def nameOf (st : State) (n : Nat) : String := (alookup st.nm n).getD ""

def setParField (st : State) (n : Nat) (v : Option Nat) : State :=
  { st with par := updA st.par n v }

def setChlField (st : State) (n : Nat) (l : List Nat) : State :=
  { st with chl := updA st.chl n l }

/-- `NodeMixin._path`: follow `parent` links, root first, self last.
The fuel argument bounds the number of steps; `none` means the walk did
not reach a root within the fuel (only possible in a cyclic store). -/
def ancChain (st : State) : Nat → Nat → Option (List Nat)
  | 0, _ => none
  | fuel + 1, n =>
    match parentOf st n with
    | none => some [n]
    | some p => (ancChain st fuel p).map (fun l => l ++ [n])

/-- Enough fuel for any terminating parent walk in `st`. -/
def fuelOf (st : State) : Nat := st.par.length + 1

/-- `NodeMixin.path` as a total function; equals the Python value on every
store in which the walk from `n` terminates. -/
def path (st : State) (n : Nat) : List Nat := (ancChain st (fuelOf st) n).getD [n]

/-- `NodeMixin.root`: `path[0]` when a parent exists, else the node itself;
`headD` covers both cases since `path` is never empty. -/
def rootOf (st : State) (n : Nat) : Nat := (path st n).headD n

inductive SErr
  | loopError
  | corruptError
deriving DecidableEq

inductive Hk
  | preDetach (p : Nat)
  | postDetach (p : Nat)
  | preAttach (p : Nat)
  | postAttach (p : Nat)
deriving DecidableEq

/-- Result of one `parent` assignment: `err` is the raised exception (if
any), `st` the heap at the moment control returns, `hooks` the lifecycle
notifications that fired, in order. -/
structure SetResult where
  err : Option SErr
  st : State
  hooks : List Hk
deriving DecidableEq

/-- The detach step of the setter: `_pre_detach`, the membership assert,
removal from the old parent's children, `_post_detach`. -/
def detach (st : State) (self p : Nat) : SetResult :=
  if self ∈ childrenOf st p then
    { err := none,
      st := setChlField st p ((childrenOf st p).erase self),
      hooks := [Hk.preDetach p, Hk.postDetach p] }
  else
    { err := some SErr.corruptError, st := st, hooks := [Hk.preDetach p] }

/-- The `NodeMixin.parent` setter, line for line: detach from the old
parent, loop check (`value is self`, then `self in value.path`), attach
assert and append, and finally `self._parent = value` on every
non-raising route. -/
def setParent (st : State) (self : Nat) (value : Option Nat) : SetResult :=
  match value with
  | none =>
    match parentOf st self with
    | some p =>
      let d := detach st self p
      match d.err with
      | some e => { err := some e, st := d.st, hooks := d.hooks }
      | none => { err := none, st := setParField d.st self none, hooks := d.hooks }
    | none => { err := none, st := setParField st self none, hooks := [] }
  | some v =>
    if parentOf st self = some v then
      { err := none, st := setParField st self (some v), hooks := [] }
    else
      let d : SetResult :=
        match parentOf st self with
        | some p => detach st self p
        | none => { err := none, st := st, hooks := [] }
      match d.err with
      | some e => { err := some e, st := d.st, hooks := d.hooks }
      | none =>
        if v = self then
          { err := some SErr.loopError, st := d.st, hooks := d.hooks }
        else if self ∈ path d.st v then
          { err := some SErr.loopError, st := d.st, hooks := d.hooks }
        else if self ∈ childrenOf d.st v then
          { err := some SErr.corruptError, st := d.st, hooks := d.hooks ++ [Hk.preAttach v] }
        else
          { err := none,
            st := setParField (setChlField d.st v (childrenOf d.st v ++ [self])) self (some v),
            hooks := d.hooks ++ [Hk.preAttach v, Hk.postAttach v] }

def parKeys (st : State) : List Nat := st.par.map Prod.fst

def chlKeys (st : State) : List Nat := st.chl.map Prod.fst

/-- Well-formed stores: the invariants the library maintains.  Children
membership and the stored parent agree both ways, children lists hold no
duplicates, and every parent walk terminates (acyclicity). -/
def WF (st : State) : Prop :=
  (∀ p ∈ chlKeys st, ∀ n ∈ childrenOf st p, parentOf st n = some p) ∧
  (∀ p ∈ chlKeys st, (childrenOf st p).Nodup) ∧
  (∀ n ∈ parKeys st, ∀ p ∈ (parentOf st n).toList, n ∈ childrenOf st p) ∧
  (∀ n ∈ parKeys st, (ancChain st (fuelOf st) n).isSome = true)

instance (st : State) : Decidable (WF st) := by
  unfold WF; infer_instance

/-! ## Walker -/

/-- The `c = [si for si, ei in zip(s, e) if si is ei]` computation of
`Walker.walk`. -/
def walkCommon (s e : List Nat) : List Nat :=
  ((s.zip e).filter (fun q => q.1 == q.2)).map Prod.fst

/-- Longest common prefix of two paths; its last element is the lowest
common ancestor. -/
def lcp : List Nat → List Nat → List Nat
  | x :: s, y :: e => if x = y then x :: lcp s e else []
  | _, _ => []

inductive WErr
  | walkError
  | fault
deriving DecidableEq

/-- `Walker.walk`.  `fault` stands for the IndexError or AssertionError
the Python code would raise on an empty or root-less common part. -/
def walk (st : State) (a b : Nat) : Except WErr (List Nat × List Nat) :=
  if rootOf st a ≠ rootOf st b then Except.error WErr.walkError
  else
    match (walkCommon (path st a) (path st b)).getLast? with
    | none => Except.error WErr.fault
    | some last =>
      if (walkCommon (path st a) (path st b)).head? ≠ some (rootOf st a) then
        Except.error WErr.fault
      else
        Except.ok
          (if a = last then []
            else (((path st a).drop
              ((walkCommon (path st a) (path st b)).length - 1)).dropLast).reverse,
          if b = last then []
            else (path st b).drop
              (((walkCommon (path st a) (path st b)).length - 1) + 1))

/-! ## Resolver -/

inductive ResErr
  | resErr
  | childErr
  | attrErr
  | idxErr
deriving DecidableEq

/-- Python `path.split("/")` on the character list. -/
def splitSlash : List Char → List (List Char)
  | [] => [[]]
  | c :: t =>
    if c = '/' then [] :: splitSlash t
    else
      match splitSlash t with
      | [] => [[c]]
      | h :: r => (c :: h) :: r

def splitParts (p : String) : List String :=
  (splitSlash p.data).map (fun l => { data := l })

/-- `path.startswith("/")`. -/
def isAbs (p : String) : Bool :=
  match p.data with
  | '/' :: _ => true
  | _ => false

def slookup {α : Type} : List (String × α) → String → Option α
  | [], _ => none
  | (k, v) :: t, s => if k = s then some v else slookup t s

/-- One `OrderedDict` insertion: an existing key keeps its position but
takes the new value, a new key is appended. -/
def odUpd (acc : List (String × Nat)) (k : String) (v : Nat) : List (String × Nat) :=
  if (slookup acc k).isSome then acc.map (fun q => if q.1 = k then (k, v) else q)
  else acc ++ [(k, v)]

def odict (l : List (String × Nat)) : List (String × Nat) :=
  l.foldl (fun acc q => odUpd acc q.1 q.2) []

/-- `Resolver.__get_nodemap`: ordered name-to-child mapping over
`node.children`. -/
def nodemap (st : State) (c : Nat) : List (String × Nat) :=
  odict ((childrenOf st c).map (fun ch => (nameOf st ch, ch)))

/-- `Resolver.__start`: split the path and consume the root part of an
absolute path. -/
def startRes (st : State) (n : Nat) (p : String) : Except ResErr (Nat × List String) :=
  let parts := splitParts p
  if isAbs p then
    let r := rootOf st n
    let rootpart := nameOf st r
    let parts1 := parts.drop 1
    match parts1.head? with
    | none => Except.error ResErr.idxErr
    | some h =>
      if h = "" then Except.error ResErr.resErr
      else if h ≠ rootpart then Except.error ResErr.resErr
      else Except.ok (r, parts1.drop 1)
  else Except.ok (n, parts)

/-- The segment loop of `Resolver.get`.  The current node is an
`Option` because `node = node.parent` at a root leaves `None`;
dereferencing it afterwards is the AttributeError of the Python code. -/
def getGo (st : State) : List String → Option Nat → Except ResErr (Option Nat)
  | [], cur => Except.ok cur
  | part :: rest, cur =>
    if part = ".." then
      match cur with
      | none => Except.error ResErr.attrErr
      | some c => getGo st rest (parentOf st c)
    else if part = "" ∨ part = "." then getGo st rest cur
    else
      match cur with
      | none => Except.error ResErr.attrErr
      | some c =>
        match slookup (nodemap st c) part with
        | some child => getGo st rest (some child)
        | none => Except.error ResErr.childErr

/-- `Resolver.get`. -/
def resolverGet (st : State) (n : Nat) (p : String) : Except ResErr (Option Nat) :=
  match startRes st n p with
  | Except.error e => Except.error e
  | Except.ok (cur, parts) => getGo st parts (some cur)

/-- `Resolver.__translate` output, one token per pattern character:
`*` becomes `.*`, `?` becomes `.`, anything else is escaped literally. -/
inductive Tok
  | star
  | anyc
  | lit (c : Char)
deriving DecidableEq

def translatePat (pat : String) : List Tok :=
  pat.data.map (fun c => if c = '*' then Tok.star else if c = '?' then Tok.anyc else Tok.lit c)

/-- Matching of `.*` followed by the rest: try every suffix. -/
def starLoop (f : List Char → Bool) : List Char → Bool
  | [] => f []
  | c :: s => f (c :: s) || starLoop f s

/-- Semantics of the compiled regex: anchored at the start by `re.match`
and at the end by the trailing `\Z`, with `.` matching every character
(the `(?ms)` flags make `.` match newlines too; `/` is matched either
way). -/
def tmatch : List Tok → List Char → Bool
  | [], s => s.isEmpty
  | Tok.star :: ts, s => starLoop (tmatch ts) s
  | Tok.anyc :: ts, s =>
    match s with
    | [] => false
    | _ :: s2 => tmatch ts s2
  | Tok.lit c :: ts, s =>
    match s with
    | [] => false
    | d :: s2 => (c == d) && tmatch ts s2

/-- `Resolver.__match` (the cache is semantically transparent). -/
def rmatch (name pat : String) : Bool := tmatch (translatePat pat) name.data

/-- `Resolver.__is_wildcard`. -/
def isWildcard (pat : String) : Bool := pat.data.contains '?' || pat.data.contains '*'

/-- The per-child loop of `Resolver.__glob`: `recur = none` encodes an
empty remainder (append the matching child), `recur = some f` the
recursive descent; a ResolverError from the descent is re-raised unless
the current segment is a wildcard. -/
def globLoop (part : String) (recur : Option (Nat → Except ResErr (List Nat))) :
    List (String × Nat) → List Nat → Except ResErr (List Nat)
  | [], ms => Except.ok ms
  | (nm0, child) :: others, ms =>
    if rmatch nm0 part then
      match recur with
      | none => globLoop part recur others (ms ++ [child])
      | some f =>
        match f child with
        | Except.ok sub => globLoop part recur others (ms ++ sub)
        | Except.error e =>
          if e = ResErr.childErr ∨ e = ResErr.resErr then
            if isWildcard part then globLoop part recur others ms
            else Except.error e
          else Except.error e
    else globLoop part recur others ms

/-- `Resolver.__glob`.  `parts[0]` on an empty list is the IndexError of
the Python code. -/
def globGo (st : State) : List String → Option Nat → Except ResErr (List Nat)
  | [], _ => Except.error ResErr.idxErr
  | part :: rest, cur =>
    if part = ".." then
      match cur with
      | none => Except.error ResErr.attrErr
      | some c => globGo st rest (parentOf st c)
    else if part = "" ∨ part = "." then globGo st rest cur
    else
      match cur with
      | none => Except.error ResErr.attrErr
      | some c =>
        let recur :=
          if rest.isEmpty then none
          else some (fun child => globGo st rest (some child))
        match globLoop part recur (nodemap st c) [] with
        | Except.error e => Except.error e
        | Except.ok ms =>
          if ms.isEmpty && !(isWildcard part) then Except.error ResErr.childErr
          else Except.ok ms

/-- `Resolver.glob`. -/
def resolverGlob (st : State) (n : Nat) (p : String) : Except ResErr (List Nat) :=
  match startRes st n p with
  | Except.error e => Except.error e
  | Except.ok (cur, parts) => globGo st parts (some cur)

/-! ## Concrete stores used by counterexamples and witnesses -/

/-- A two node tree: node 0 is the root, node 1 its only child. -/
def stA : State := { par := [(1, some 0)], chl := [(0, [1])], nm := [] }

/-- Node 0 is the root with children `[1, 2]` in that order. -/
def stB : State := { par := [(1, some 0), (2, some 0)], chl := [(0, [1, 2])], nm := [] }

/-- A single root node named `top`. -/
def stR : State := { par := [], chl := [], nm := [(0, "top")] }

/-- Root 0 `top` with children 1 `sub0` (which has child 3 `x`) and 2 `sub1`. -/
def stT : State :=
  { par := [(1, some 0), (2, some 0), (3, some 1)],
    chl := [(0, [1, 2]), (1, [3])],
    nm := [(0, "top"), (1, "sub0"), (2, "sub1"), (3, "x")] }

/-! ## Association list lemmas -/

theorem alookup_updA_self {α : Type} (l : List (Nat × α)) (k : Nat) (v : α) :
    alookup (updA l k v) k = some v := by
  induction l with
  | nil => simp [updA, alookup]
  | cons h t ih =>
    obtain ⟨k0, v0⟩ := h
    by_cases hk : k0 = k
    · subst hk
      simp [updA, alookup]
    · simp [updA, hk, alookup, ih]


theorem alookup_updA_ne {α : Type} (l : List (Nat × α)) {k k2 : Nat} (v : α)
    (h : k2 ≠ k) : alookup (updA l k v) k2 = alookup l k2 := by
  induction l with
  | nil => simp [updA, alookup, Ne.symm h]
  | cons h0 t ih =>
    obtain ⟨k0, v0⟩ := h0
    by_cases hk : k0 = k
    · subst hk
      simp [updA, alookup, Ne.symm h]
    · simp [updA, hk, alookup, ih]

theorem mem_keys_of_alookup {α : Type} {l : List (Nat × α)} {k : Nat} {v : α}
    (h : alookup l k = some v) : k ∈ l.map Prod.fst := by
  induction l with
  | nil => simp [alookup] at h
  | cons h0 t ih =>
    obtain ⟨k0, v0⟩ := h0
    by_cases hk : k0 = k
    · subst hk; simp
    · simp only [alookup, if_neg hk] at h
      rw [List.map_cons]
      exact List.mem_cons_of_mem _ (ih h)

theorem alookup_eq_none {α : Type} {l : List (Nat × α)} {k : Nat}
    (h : k ∉ l.map Prod.fst) : alookup l k = none := by
  induction l with
  | nil => rfl
  | cons h0 t ih =>
    obtain ⟨k0, v0⟩ := h0
    rw [List.map_cons] at h
    have hne : ¬ k0 = k := fun he => h (by rw [he]; exact List.mem_cons_self _ _)
    have ht : k ∉ t.map Prod.fst := fun hm => h (List.mem_cons_of_mem _ hm)
    simp [alookup, hne, ih ht]

/-! ## Field update lemmas -/

theorem parentOf_setParField_self (st : State) (n : Nat) (v : Option Nat) :
    parentOf (setParField st n v) n = v := by
  simp [parentOf, setParField, alookup_updA_self]

theorem parentOf_setParField_ne (st : State) {n x : Nat} (v : Option Nat) (h : x ≠ n) :
    parentOf (setParField st n v) x = parentOf st x := by
  simp [parentOf, setParField, alookup_updA_ne _ _ h]

theorem childrenOf_setParField (st : State) (n x : Nat) (v : Option Nat) :
    childrenOf (setParField st n v) x = childrenOf st x := rfl

theorem parentOf_setChlField (st : State) (n x : Nat) (l : List Nat) :
    parentOf (setChlField st n l) x = parentOf st x := rfl

theorem childrenOf_setChlField_self (st : State) (n : Nat) (l : List Nat) :
    childrenOf (setChlField st n l) n = l := by
  simp [childrenOf, setChlField, alookup_updA_self]

theorem childrenOf_setChlField_ne (st : State) {n x : Nat} (l : List Nat) (h : x ≠ n) :
    childrenOf (setChlField st n l) x = childrenOf st x := by
  simp [childrenOf, setChlField, alookup_updA_ne _ _ h]

/-! ## Ancestor chain lemmas -/

theorem ancChain_none {st : State} {f n : Nat} (hp : parentOf st n = none) :
    ancChain st (f + 1) n = some [n] := by
  simp [ancChain, hp]

theorem ancChain_some {st : State} {f n p : Nat} (hp : parentOf st n = some p) :
    ancChain st (f + 1) n = (ancChain st f p).map (fun l => l ++ [n]) := by
  simp [ancChain, hp]

theorem ancChain_ne_nil {st : State} {f n : Nat} {l : List Nat}
    (h : ancChain st f n = some l) : l ≠ [] := by
  match f with
  | 0 => simp [ancChain] at h
  | f + 1 =>
    cases hp : parentOf st n with
    | none =>
      rw [ancChain_none hp] at h
      simp at h
      simp [← h]
    | some p =>
      rw [ancChain_some hp] at h
      cases hq : ancChain st f p with
      | none => rw [hq] at h; simp at h
      | some l2 =>
        rw [hq] at h
        simp at h
        simp [← h]

theorem ancChain_getLast {st : State} {f n : Nat} {l : List Nat}
    (h : ancChain st f n = some l) : l.getLast? = some n := by
  match f with
  | 0 => simp [ancChain] at h
  | f + 1 =>
    cases hp : parentOf st n with
    | none =>
      rw [ancChain_none hp] at h
      simp at h
      simp [← h]
    | some p =>
      rw [ancChain_some hp] at h
      cases hq : ancChain st f p with
      | none => rw [hq] at h; simp at h
      | some l2 =>
        rw [hq] at h
        simp at h
        rw [← h]
        simp [List.getLast?_concat]

theorem ancChain_len_le {st : State} {f n : Nat} {l : List Nat}
    (h : ancChain st f n = some l) : l.length ≤ f := by
  induction f generalizing n l with
  | zero => simp [ancChain] at h
  | succ f ih =>
    cases hp : parentOf st n with
    | none =>
      rw [ancChain_none hp] at h
      simp at h
      simp [← h]
    | some p =>
      rw [ancChain_some hp] at h
      cases hq : ancChain st f p with
      | none => rw [hq] at h; simp at h
      | some l2 =>
        rw [hq] at h
        simp at h
        have := ih hq
        rw [← h]
        simp
        omega

theorem ancChain_of_len_le {st : State} {f n : Nat} {l : List Nat}
    (h : ancChain st f n = some l) :
    ∀ g, l.length ≤ g → ancChain st g n = some l := by
  induction f generalizing n l with
  | zero => simp [ancChain] at h
  | succ f ih =>
    intro g hg
    cases hp : parentOf st n with
    | none =>
      rw [ancChain_none hp] at h
      simp at h
      subst h
      simp at hg
      obtain ⟨g2, rfl⟩ : ∃ g2, g = g2 + 1 := ⟨g - 1, by omega⟩
      exact ancChain_none hp
    | some p =>
      rw [ancChain_some hp] at h
      cases hq : ancChain st f p with
      | none => rw [hq] at h; simp at h
      | some l2 =>
        rw [hq] at h
        simp at h
        subst h
        simp at hg
        obtain ⟨g2, rfl⟩ : ∃ g2, g = g2 + 1 := ⟨g - 1, by omega⟩
        have hlen : l2.length ≤ g2 := by omega
        rw [ancChain_some hp, ih hq g2 hlen]
        rfl

theorem ancChain_unique {st : State} {f g n : Nat} {l l2 : List Nat}
    (h1 : ancChain st f n = some l) (h2 : ancChain st g n = some l2) : l = l2 := by
  have e1 := ancChain_of_len_le h1 (l.length + l2.length) (by omega)
  have e2 := ancChain_of_len_le h2 (l.length + l2.length) (by omega)
  rw [e1] at e2
  exact Option.some_injective _ e2

theorem ancChain_mem_split {st : State} {f x : Nat} {l : List Nat}
    (h : ancChain st f x = some l) {n : Nat} (hm : n ∈ l) :
    ∃ g l1, g ≤ f ∧ ancChain st g n = some l1 ∧ ∃ t, l1 ++ t = l := by
  induction f generalizing x l with
  | zero => simp [ancChain] at h
  | succ f ih =>
    cases hp : parentOf st x with
    | none =>
      rw [ancChain_none hp] at h
      simp at h
      subst h
      simp at hm
      subst hm
      exact ⟨f + 1, [n], le_refl _, ancChain_none hp, [], by simp⟩
    | some p =>
      rw [ancChain_some hp] at h
      cases hq : ancChain st f p with
      | none => rw [hq] at h; simp at h
      | some l2 =>
        rw [hq] at h
        simp at h
        subst h
        rcases List.mem_append.1 hm with hm2 | hm2
        · obtain ⟨g, l1, hg, hc, t, ht⟩ := ih hq hm2
          exact ⟨g, l1, Nat.le_succ_of_le hg, hc, t ++ [x], by rw [← List.append_assoc, ht]⟩
        · simp at hm2
          subst hm2
          refine ⟨f + 1, l2 ++ [n], le_refl _, ?_, [], by simp⟩
          rw [ancChain_some hp, hq]
          rfl

theorem ancChain_not_mem {st : State} {f n p : Nat} {l : List Nat}
    (hp : parentOf st n = some p) (h : ancChain st f p = some l) : n ∉ l := by
  intro hm
  obtain ⟨g, l1, _, hc, t, ht⟩ := ancChain_mem_split h hm
  have hbig : ancChain st (f + 1) n = some (l ++ [n]) := by
    rw [ancChain_some hp, h]
    rfl
  have heq : l1 = l ++ [n] := ancChain_unique hc hbig
  have hlen : l1.length ≤ l.length := by
    rw [← ht]
    simp
  rw [heq] at hlen
  simp at hlen

theorem ancChain_nodup {st : State} {f n : Nat} {l : List Nat}
    (h : ancChain st f n = some l) : l.Nodup := by
  induction f generalizing n l with
  | zero => simp [ancChain] at h
  | succ f ih =>
    cases hp : parentOf st n with
    | none =>
      rw [ancChain_none hp] at h
      simp at h
      simp [← h]
    | some p =>
      rw [ancChain_some hp] at h
      cases hq : ancChain st f p with
      | none => rw [hq] at h; simp at h
      | some l2 =>
        rw [hq] at h
        simp at h
        rw [← h]
        have hm := ancChain_not_mem hp hq
        simp [List.nodup_append, ih hq, hm]

theorem ancChain_chain {st : State} {f n : Nat} {l : List Nat}
    (h : ancChain st f n = some l) :
    List.Chain' (fun x y => parentOf st y = some x) l := by
  induction f generalizing n l with
  | zero => simp [ancChain] at h
  | succ f ih =>
    cases hp : parentOf st n with
    | none =>
      rw [ancChain_none hp] at h
      simp at h
      simp [← h]
    | some p =>
      rw [ancChain_some hp] at h
      cases hq : ancChain st f p with
      | none => rw [hq] at h; simp at h
      | some l2 =>
        rw [hq] at h
        simp at h
        rw [← h]
        apply List.Chain'.append (ih hq) (by simp)
        intro x hx y hy
        simp at hy
        subst hy
        rw [ancChain_getLast hq] at hx
        simp at hx
        subst hx
        exact hp

theorem ancChain_keys {st : State} {f n : Nat} {l : List Nat}
    (h : ancChain st f n = some l) :
    ∃ h0 t, l = h0 :: t ∧ parentOf st h0 = none ∧ ∀ x ∈ t, x ∈ parKeys st := by
  induction f generalizing n l with
  | zero => simp [ancChain] at h
  | succ f ih =>
    cases hp : parentOf st n with
    | none =>
      rw [ancChain_none hp] at h
      simp at h
      exact ⟨n, [], by simp [← h], hp, by simp⟩
    | some p =>
      rw [ancChain_some hp] at h
      cases hq : ancChain st f p with
      | none => rw [hq] at h; simp at h
      | some l2 =>
        rw [hq] at h
        simp at h
        obtain ⟨h0, t, he, hr, hk⟩ := ih hq
        refine ⟨h0, t ++ [n], by rw [← h, he]; rfl, hr, ?_⟩
        intro x hx
        rcases List.mem_append.1 hx with hx2 | hx2
        · exact hk x hx2
        · simp at hx2
          subst hx2
          cases hal : alookup st.par x with
          | none => simp [parentOf, hal] at hp
          | some o => exact mem_keys_of_alookup hal

theorem mem_of_getLast_some {α : Type} {l : List α} {n : α}
    (h : l.getLast? = some n) : n ∈ l := by
  obtain ⟨hne, he⟩ := List.mem_getLast?_eq_getLast (show n ∈ l.getLast? by simp [h])
  rw [he]
  exact List.getLast_mem hne

theorem ancChain_congr {st st2 : State} {f n : Nat} {l : List Nat}
    (hpar : ∀ x ∈ l, parentOf st2 x = parentOf st x)
    (h : ancChain st f n = some l) : ancChain st2 f n = some l := by
  induction f generalizing n l with
  | zero => simp [ancChain] at h
  | succ f ih =>
    have hn : n ∈ l := mem_of_getLast_some (ancChain_getLast h)
    cases hp : parentOf st n with
    | none =>
      rw [ancChain_none hp] at h
      have hp2 : parentOf st2 n = none := by rw [hpar n hn, hp]
      rw [ancChain_none hp2]
      exact h
    | some p =>
      rw [ancChain_some hp] at h
      cases hq : ancChain st f p with
      | none => rw [hq] at h; simp at h
      | some l2 =>
        rw [hq] at h
        simp at h
        have hp2 : parentOf st2 n = some p := by rw [hpar n hn, hp]
        have hsub : ∀ x ∈ l2, parentOf st2 x = parentOf st x := by
          intro x hx
          apply hpar
          rw [← h]
          exact List.mem_append.2 (Or.inl hx)
        rw [ancChain_some hp2, ih hsub hq]
        rw [← h]
        rfl

theorem ancChain_le_fuelOf {st : State} {f n : Nat} {l : List Nat}
    (h : ancChain st f n = some l) : l.length ≤ fuelOf st := by
  obtain ⟨h0, t, he, _, hk⟩ := ancChain_keys h
  have hnd : l.Nodup := ancChain_nodup h
  rw [he] at hnd
  have htn : t.Nodup := hnd.of_cons
  have hsp : t.Subperm (parKeys st) := List.subperm_of_subset htn hk
  have := hsp.length_le
  rw [he]
  simp only [List.length_cons, fuelOf, parKeys] at *
  simp [parKeys] at this
  omega

/-- Whenever some fuel computes a chain, the canonical fuel does too, so
`path` returns exactly that chain. -/
theorem path_of_ancChain {st : State} {f n : Nat} {l : List Nat}
    (h : ancChain st f n = some l) : path st n = l := by
  have := ancChain_of_len_le h (fuelOf st) (ancChain_le_fuelOf h)
  simp [path, this]

theorem path_ne_nil (st : State) (n : Nat) : path st n ≠ [] := by
  unfold path
  cases hq : ancChain st (fuelOf st) n with
  | none => simp
  | some l =>
    simp
    exact ancChain_ne_nil hq

/-! ## Well-formedness accessors -/

theorem childrenOf_eq_nil_of_not_key {st : State} {p : Nat}
    (h : p ∉ chlKeys st) : childrenOf st p = [] := by
  simp [childrenOf, alookup_eq_none h]

theorem parentOf_eq_none_of_not_key {st : State} {n : Nat}
    (h : n ∉ parKeys st) : parentOf st n = none := by
  simp [parentOf, alookup_eq_none h]

theorem WF.children_parent {st : State} (hw : WF st) {n p : Nat}
    (h : n ∈ childrenOf st p) : parentOf st n = some p := by
  by_cases hk : p ∈ chlKeys st
  · exact hw.1 p hk n h
  · rw [childrenOf_eq_nil_of_not_key hk] at h
    simp at h

theorem WF.children_nodup {st : State} (hw : WF st) (p : Nat) :
    (childrenOf st p).Nodup := by
  by_cases hk : p ∈ chlKeys st
  · exact hw.2.1 p hk
  · rw [childrenOf_eq_nil_of_not_key hk]
    simp

theorem WF.parent_children {st : State} (hw : WF st) {n p : Nat}
    (h : parentOf st n = some p) : n ∈ childrenOf st p := by
  by_cases hk : n ∈ parKeys st
  · exact hw.2.2.1 n hk p (by simp [h])
  · rw [parentOf_eq_none_of_not_key hk] at h
    simp at h

theorem WF.ancChain_total {st : State} (hw : WF st) (n : Nat) :
    ∃ l, ancChain st (fuelOf st) n = some l := by
  by_cases hk : n ∈ parKeys st
  · have := hw.2.2.2 n hk
    cases hq : ancChain st (fuelOf st) n with
    | none => rw [hq] at this; simp at this
    | some l => exact ⟨l, rfl⟩
  · have hp := parentOf_eq_none_of_not_key hk
    obtain ⟨f, hf⟩ : ∃ f, fuelOf st = f + 1 := ⟨st.par.length, rfl⟩
    rw [hf]
    exact ⟨[n], ancChain_none hp⟩

theorem WF.path_ancChain {st : State} (hw : WF st) (n : Nat) :
    ancChain st (fuelOf st) n = some (path st n) := by
  obtain ⟨l, hl⟩ := hw.ancChain_total n
  rw [hl, path, hl]
  rfl

theorem WF.path_getLast {st : State} (hw : WF st) (n : Nat) :
    (path st n).getLast? = some n :=
  ancChain_getLast (hw.path_ancChain n)

theorem WF.path_nodup {st : State} (hw : WF st) (n : Nat) :
    (path st n).Nodup :=
  ancChain_nodup (hw.path_ancChain n)

theorem WF.path_chain {st : State} (hw : WF st) (n : Nat) :
    List.Chain' (fun x y => parentOf st y = some x) (path st n) :=
  ancChain_chain (hw.path_ancChain n)

/-- In a well-formed store a node never lies on its own parent's path:
that is exactly acyclicity. -/
theorem WF.not_mem_path_of_parent {st : State} (hw : WF st) {n p : Nat}
    (hp : parentOf st n = some p) : n ∉ path st p :=
  ancChain_not_mem hp (hw.path_ancChain p)

theorem WF.parent_ne_self {st : State} (hw : WF st) (n : Nat) :
    parentOf st n ≠ some n := by
  intro hp
  exact (hw.not_mem_path_of_parent hp)
    (mem_of_getLast_some (hw.path_getLast n))

/-- A node with a parent has that parent's whole path, then itself. -/
theorem WF.path_parent_append {st : State} (hw : WF st) {n p : Nat}
    (hp : parentOf st n = some p) : path st n = path st p ++ [n] := by
  have hc := hw.path_ancChain p
  have : ancChain st (fuelOf st + 1) n = some (path st p ++ [n]) := by
    rw [ancChain_some hp, hc]
    rfl
  exact path_of_ancChain this

theorem WF.mem_path_parent {st : State} (hw : WF st) {n p : Nat}
    (hp : parentOf st n = some p) : p ∈ path st n := by
  rw [hw.path_parent_append hp]
  exact List.mem_append.2 (Or.inl (mem_of_getLast_some (hw.path_getLast p)))

theorem path_root (st : State) {n : Nat} (hp : parentOf st n = none) :
    path st n = [n] := by
  obtain ⟨f, hf⟩ : ∃ f, fuelOf st = f + 1 := ⟨st.par.length, rfl⟩
  rw [path, hf, ancChain_none hp]
  rfl

/-! ## Evaluation lemmas for the parent setter -/

theorem setParent_none_root {st : State} {n : Nat} (hp : parentOf st n = none) :
    setParent st n none =
      { err := none, st := setParField st n none, hooks := [] } := by
  simp [setParent, hp]

theorem setParent_none_detach {st : State} {n p : Nat}
    (hp : parentOf st n = some p) (hm : n ∈ childrenOf st p) :
    setParent st n none =
      { err := none,
        st := setParField (setChlField st p ((childrenOf st p).erase n)) n none,
        hooks := [Hk.preDetach p, Hk.postDetach p] } := by
  simp [setParent, hp, detach, hm]

theorem setParent_noop {st : State} {n v : Nat} (hp : parentOf st n = some v) :
    setParent st n (some v) =
      { err := none, st := setParField st n (some v), hooks := [] } := by
  simp [setParent, hp]

theorem setParent_change_root {st : State} {n v : Nat} (hp : parentOf st n = none) :
    setParent st n (some v) =
      (if v = n then
        { err := some SErr.loopError, st := st, hooks := [] }
      else if n ∈ path st v then
        { err := some SErr.loopError, st := st, hooks := [] }
      else if n ∈ childrenOf st v then
        { err := some SErr.corruptError, st := st, hooks := [Hk.preAttach v] }
      else
        { err := none,
          st := setParField (setChlField st v (childrenOf st v ++ [n])) n (some v),
          hooks := [Hk.preAttach v, Hk.postAttach v] }) := by
  simp [setParent, hp]

theorem setParent_change_detach {st : State} {n p v : Nat}
    (hp : parentOf st n = some p) (hne : p ≠ v) (hm : n ∈ childrenOf st p) :
    setParent st n (some v) =
      (if v = n then
        { err := some SErr.loopError,
          st := setChlField st p ((childrenOf st p).erase n),
          hooks := [Hk.preDetach p, Hk.postDetach p] }
      else if n ∈ path (setChlField st p ((childrenOf st p).erase n)) v then
        { err := some SErr.loopError,
          st := setChlField st p ((childrenOf st p).erase n),
          hooks := [Hk.preDetach p, Hk.postDetach p] }
      else if n ∈ childrenOf (setChlField st p ((childrenOf st p).erase n)) v then
        { err := some SErr.corruptError,
          st := setChlField st p ((childrenOf st p).erase n),
          hooks := [Hk.preDetach p, Hk.postDetach p, Hk.preAttach v] }
      else
        { err := none,
          st := setParField
            (setChlField (setChlField st p ((childrenOf st p).erase n)) v
              (childrenOf (setChlField st p ((childrenOf st p).erase n)) v ++ [n])) n (some v),
          hooks := [Hk.preDetach p, Hk.postDetach p, Hk.preAttach v, Hk.postAttach v] }) := by
  simp [setParent, hp, hne, detach, hm]

/-- The parent walk only reads the `par` field, so children updates do
not change it. -/
theorem ancChain_setChlField (st : State) (p : Nat) (l : List Nat) (f n : Nat) :
    ancChain (setChlField st p l) f n = ancChain st f n := by
  induction f generalizing n with
  | zero => rfl
  | succ f ih =>
    show (match parentOf (setChlField st p l) n with
      | none => some [n]
      | some q => (ancChain (setChlField st p l) f q).map (fun c => c ++ [n])) = _
    cases hq : parentOf st n with
    | none =>
      rw [show parentOf (setChlField st p l) n = none from hq]
      rw [ancChain_none hq]
    | some q =>
      rw [show parentOf (setChlField st p l) n = some q from hq]
      rw [ancChain_some hq]
      simp [ih]

theorem path_setChlField (st : State) (p : Nat) (l : List Nat) (n : Nat) :
    path (setChlField st p l) n = path st n := by
  unfold path
  rw [show fuelOf (setChlField st p l) = fuelOf st from rfl, ancChain_setChlField]

/-- On every route that raises LoopError no `_parent` field has been
written, and the only structural change is the already-performed detach
from the old parent (none when the node was a root). -/
theorem setParent_loop_state {st : State} {n : Nat} {v : Option Nat}
    (h : (setParent st n v).err = some SErr.loopError) :
    (∀ x, parentOf (setParent st n v).st x = parentOf st x) ∧
    (parentOf st n = none → (setParent st n v).st = st) ∧
    (∀ p, parentOf st n = some p →
      childrenOf (setParent st n v).st p = (childrenOf st p).erase n ∧
      ∀ q, q ≠ p → childrenOf (setParent st n v).st q = childrenOf st q) := by
  cases v with
  | none =>
    exfalso
    cases hp : parentOf st n with
    | none =>
      rw [setParent_none_root hp] at h
      simp at h
    | some p =>
      by_cases hm : n ∈ childrenOf st p
      · rw [setParent_none_detach hp hm] at h
        simp at h
      · simp [setParent, hp, detach, hm] at h
  | some w =>
    by_cases hnoop : parentOf st n = some w
    · exfalso
      rw [setParent_noop hnoop] at h
      simp at h
    · cases hp : parentOf st n with
      | none =>
        rw [setParent_change_root hp] at h ⊢
        by_cases h1 : w = n
        · rw [if_pos h1] at h ⊢
          exact ⟨fun x => rfl, fun _ => rfl, fun p hps => nomatch hps⟩
        · rw [if_neg h1] at h ⊢
          by_cases h2 : n ∈ path st w
          · rw [if_pos h2] at h ⊢
            exact ⟨fun x => rfl, fun _ => rfl, fun p hps => nomatch hps⟩
          · exfalso
            rw [if_neg h2] at h
            by_cases h3 : n ∈ childrenOf st w
            · rw [if_pos h3] at h; simp at h
            · rw [if_neg h3] at h; simp at h
      | some p =>
        have hne : p ≠ w := fun he => hnoop (by rw [hp, he])
        by_cases hm : n ∈ childrenOf st p
        · rw [setParent_change_detach hp hne hm] at h ⊢
          by_cases h1 : w = n
          · rw [if_pos h1] at h ⊢
            refine ⟨fun x => rfl, fun hps => absurd hps (by simp), ?_⟩
            intro p2 hps
            injection hps with hps2
            subst hps2
            exact ⟨childrenOf_setChlField_self st p _,
              fun q hq => childrenOf_setChlField_ne st _ hq⟩
          · rw [if_neg h1] at h ⊢
            by_cases h2 : n ∈ path (setChlField st p ((childrenOf st p).erase n)) w
            · rw [if_pos h2] at h ⊢
              refine ⟨fun x => rfl, fun hps => absurd hps (by simp), ?_⟩
              intro p2 hps
              injection hps with hps2
              subst hps2
              exact ⟨childrenOf_setChlField_self st p _,
                fun q hq => childrenOf_setChlField_ne st _ hq⟩
            · exfalso
              rw [if_neg h2] at h
              by_cases h3 : n ∈ childrenOf (setChlField st p ((childrenOf st p).erase n)) w
              · rw [if_pos h3] at h; simp at h
              · rw [if_neg h3] at h; simp at h
        · exfalso
          simp [setParent, hp, hne, detach, hm] at h

/-- In a well-formed store a parent assignment to a node `v` raises
LoopError exactly for `v = n` or `n ∈ v.path`, and otherwise completes
without any exception. -/
theorem setParent_some_err_eq {st : State} (hw : WF st) (n v : Nat) :
    (setParent st n (some v)).err =
      (if v = n ∨ n ∈ path st v then some SErr.loopError else none) := by
  cases hp : parentOf st n with
  | none =>
    rw [setParent_change_root hp]
    by_cases h1 : v = n
    · simp [h1]
    · rw [if_neg h1]
      by_cases h2 : n ∈ path st v
      · simp [h2]
      · have h3 : n ∉ childrenOf st v := by
          intro hmm
          rw [hw.children_parent hmm] at hp
          cases hp
        rw [if_neg h2, if_neg h3]
        simp [h1, h2]
  | some p =>
    by_cases hpv : p = v
    · subst hpv
      rw [setParent_noop hp]
      have h1 : p ≠ n := by
        intro he
        rw [he] at hp
        exact hw.parent_ne_self n hp
      have h2 : n ∉ path st p := hw.not_mem_path_of_parent hp
      simp [h1, h2]
    · have hm : n ∈ childrenOf st p := hw.parent_children hp
      rw [setParent_change_detach hp hpv hm]
      rw [path_setChlField]
      by_cases h1 : v = n
      · simp [h1]
      · rw [if_neg h1]
        by_cases h2 : n ∈ path st v
        · simp [h2]
        · have h3 : n ∉ childrenOf (setChlField st p ((childrenOf st p).erase n)) v := by
            rw [childrenOf_setChlField_ne st _ (fun he => hpv he.symm)]
            intro hmm
            rw [hw.children_parent hmm] at hp
            exact hpv (by cases hp; rfl)
          rw [if_neg h2, if_neg h3]
          simp [h1, h2]

/-- Re-assigning the current parent value is a complete no-op: no error,
no hooks, no observable change to any parent or children field. -/
theorem setParent_keep (st : State) (n : Nat) :
    (setParent st n (parentOf st n)).err = none ∧
    (setParent st n (parentOf st n)).hooks = [] ∧
    (∀ x, parentOf (setParent st n (parentOf st n)).st x = parentOf st x) ∧
    (∀ x, childrenOf (setParent st n (parentOf st n)).st x = childrenOf st x) := by
  cases hp : parentOf st n with
  | none =>
    rw [setParent_none_root hp]
    refine ⟨rfl, rfl, ?_, fun x => rfl⟩
    intro x
    by_cases hx : x = n
    · subst hx
      rw [parentOf_setParField_self, hp]
    · exact parentOf_setParField_ne st _ hx
  | some p =>
    rw [setParent_noop hp]
    refine ⟨rfl, rfl, ?_, fun x => rfl⟩
    intro x
    by_cases hx : x = n
    · subst hx
      rw [parentOf_setParField_self, hp]
    · exact parentOf_setParField_ne st _ hx

/-- State facts after the attach step of a successful reparenting. -/
theorem attach_state_facts {st0 : State} {a b : Nat} {la : List Nat} {f : Nat}
    (hla : ancChain st0 f a = some la) (hb : b ∉ la) :
    parentOf (setParField (setChlField st0 a (childrenOf st0 a ++ [b])) b (some a)) b
      = some a ∧
    childrenOf (setParField (setChlField st0 a (childrenOf st0 a ++ [b])) b (some a)) a
      = childrenOf st0 a ++ [b] ∧
    path (setParField (setChlField st0 a (childrenOf st0 a ++ [b])) b (some a)) b
      = la ++ [b] := by
  refine ⟨parentOf_setParField_self _ _ _, ?_, ?_⟩
  · rw [childrenOf_setParField, childrenOf_setChlField_self]
  · have hpar : ∀ x ∈ la,
        parentOf (setParField (setChlField st0 a (childrenOf st0 a ++ [b])) b (some a)) x
          = parentOf st0 x := by
      intro x hx
      have hxb : x ≠ b := fun he => hb (he ▸ hx)
      rw [parentOf_setParField_ne _ _ hxb]
      rfl
    have h1 := ancChain_congr hpar hla
    have h2 : ancChain (setParField (setChlField st0 a (childrenOf st0 a ++ [b])) b (some a))
        (f + 1) b = some (la ++ [b]) := by
      rw [ancChain_some (parentOf_setParField_self _ _ _), h1]
      rfl
    exact path_of_ancChain h2

/-- State facts after detaching a node into a root (`parent = None`). -/
theorem detach_state_facts {st1 : State} {a b : Nat}
    (hp : parentOf st1 b = some a) (hm : b ∈ childrenOf st1 a) :
    (setParent st1 b none).err = none ∧
    parentOf (setParent st1 b none).st b = none ∧
    childrenOf (setParent st1 b none).st a = (childrenOf st1 a).erase b := by
  rw [setParent_none_detach hp hm]
  exact ⟨rfl, parentOf_setParField_self _ _ _, by
    rw [childrenOf_setParField, childrenOf_setChlField_self]⟩

/-- A node is always the last element of its own path. -/
theorem WF.self_mem_path {st : State} (hw : WF st) (n : Nat) : n ∈ path st n :=
  mem_of_getLast_some (hw.path_getLast n)

/-- Attaching `b` under `a` and then detaching it again: the full
round trip of claim C3, with the appended-last clause restricted to the
case in which `a` was not already `b`'s parent. -/
theorem setParent_attach_then_detach {st : State} (hw : WF st) {a b : Nat}
    (hab : a ≠ b) (hnd : b ∉ path st a) :
    (setParent st b (some a)).err = none ∧
    parentOf (setParent st b (some a)).st b = some a ∧
    a ∈ path (setParent st b (some a)).st b ∧
    b ∈ childrenOf (setParent st b (some a)).st a ∧
    (parentOf st b ≠ some a →
      childrenOf (setParent st b (some a)).st a = childrenOf st a ++ [b]) ∧
    (setParent (setParent st b (some a)).st b none).err = none ∧
    parentOf (setParent (setParent st b (some a)).st b none).st b = none ∧
    b ∉ childrenOf (setParent (setParent st b (some a)).st b none).st a := by
  have hla0 := hw.path_ancChain a
  have hselfa : a ∈ path st a := hw.self_mem_path a
  by_cases hp : parentOf st b = some a
  · -- b is already a child of a: the assignment is a no-op
    rw [setParent_noop hp]
    have hch : ∀ x, childrenOf (setParField st b (some a)) x = childrenOf st x :=
      fun x => childrenOf_setParField st b x (some a)
    have hpar : ∀ x, parentOf (setParField st b (some a)) x = parentOf st x := by
      intro x
      by_cases hx : x = b
      · subst hx
        rw [parentOf_setParField_self, hp]
      · exact parentOf_setParField_ne st _ hx
    have hm : b ∈ childrenOf st a := hw.parent_children hp
    have hpath : path (setParField st b (some a)) b = path st b := by
      have := ancChain_congr (fun x _ => hpar x) (hw.path_ancChain b)
      exact path_of_ancChain this
    have hmem : a ∈ path st b := hw.mem_path_parent hp
    have hp1 : parentOf (setParField st b (some a)) b = some a :=
      parentOf_setParField_self _ _ _
    have hm1 : b ∈ childrenOf (setParField st b (some a)) a := by
      rw [hch]
      exact hm
    obtain ⟨e2, p2, c2⟩ := detach_state_facts hp1 hm1
    refine ⟨rfl, hp1, by rw [hpath]; exact hmem, hm1,
      fun hne => absurd hp hne, e2, p2, ?_⟩
    rw [c2, hch]
    exact (hw.children_nodup a).not_mem_erase
  · -- b moves: detach from its old parent (if any), then append under a
    have hbc : b ∉ childrenOf st a := fun hmm => hp (hw.children_parent hmm)
    cases hq : parentOf st b with
    | none =>
      rw [setParent_change_root hq, if_neg hab, if_neg hnd, if_neg hbc]
      obtain ⟨p1, c1, ph1⟩ := attach_state_facts hla0 hnd
      have hm1 : b ∈ childrenOf
          (setParField (setChlField st a (childrenOf st a ++ [b])) b (some a)) a := by
        rw [c1]
        simp
      obtain ⟨e2, p2, c2⟩ := detach_state_facts p1 hm1
      refine ⟨rfl, p1, ?_, hm1, fun _ => c1, e2, p2, ?_⟩
      · rw [ph1]
        exact List.mem_append.2 (Or.inl hselfa)
      · rw [c2, c1, List.erase_append_right _ hbc]
        simp [hbc]
    | some p =>
      have hpa : p ≠ a := fun he => hp (by rw [hq, he])
      have hm := hw.parent_children hq
      rw [setParent_change_detach hq hpa hm, if_neg hab]
      rw [if_neg (show b ∉ path (setChlField st p ((childrenOf st p).erase b)) a by
        rw [path_setChlField]; exact hnd)]
      have hcmid : childrenOf (setChlField st p ((childrenOf st p).erase b)) a
          = childrenOf st a := childrenOf_setChlField_ne st _ (Ne.symm hpa)
      rw [if_neg (show b ∉ childrenOf (setChlField st p ((childrenOf st p).erase b)) a by
        rw [hcmid]; exact hbc)]
      have hla1 : ancChain (setChlField st p ((childrenOf st p).erase b)) (fuelOf st) a
          = some (path st a) := by
        rw [ancChain_setChlField]
        exact hla0
      rw [hcmid]
      obtain ⟨p1, c1, ph1⟩ := attach_state_facts hla1 hnd
      rw [hcmid] at p1 c1 ph1
      have hm1 : b ∈ childrenOf
          (setParField (setChlField (setChlField st p ((childrenOf st p).erase b)) a
            (childrenOf st a ++ [b])) b (some a)) a := by
        rw [c1]
        simp
      obtain ⟨e2, p2, c2⟩ := detach_state_facts p1 hm1
      refine ⟨rfl, p1, ?_, hm1, fun _ => c1, e2, p2, ?_⟩
      · rw [ph1]
        exact List.mem_append.2 (Or.inl hselfa)
      · rw [c2, c1, List.erase_append_right _ hbc]
        simp [hbc]

/-! ## Walker lemmas -/

theorem walkCommon_self (l : List Nat) : walkCommon l l = l := by
  induction l with
  | nil => rfl
  | cons x t ih =>
    simp [walkCommon] at ih ⊢
    exact ih

theorem lcp_self (l : List Nat) : lcp l l = l := by
  induction l with
  | nil => rfl
  | cons x t ih => simp [lcp, ih]

theorem lcp_pre1 (s e : List Nat) : ∃ t, lcp s e ++ t = s := by
  induction s generalizing e with
  | nil => exact ⟨[], by cases e <;> rfl⟩
  | cons x s ih =>
    cases e with
    | nil => exact ⟨x :: s, rfl⟩
    | cons y e =>
      by_cases hxy : x = y
      · obtain ⟨t, ht⟩ := ih e
        exact ⟨t, by simp [lcp, hxy, ht]⟩
      · exact ⟨x :: s, by simp [lcp, hxy]⟩

theorem lcp_pre2 (s e : List Nat) : ∃ t, lcp s e ++ t = e := by
  induction s generalizing e with
  | nil => exact ⟨e, by cases e <;> rfl⟩
  | cons x s ih =>
    cases e with
    | nil => exact ⟨[], rfl⟩
    | cons y e =>
      by_cases hxy : x = y
      · obtain ⟨t, ht⟩ := ih e
        exact ⟨t, by simp [lcp, hxy, ht]⟩
      · exact ⟨y :: e, by simp [lcp, hxy]⟩

/-- Once two parent chains disagree they never re-agree: each later
element is determined by its distinct predecessor. -/
theorem walkCommon_nil_of_ne {st : State} :
    ∀ {s e : List Nat} {x y : Nat},
    List.Chain' (fun u v => parentOf st v = some u) (x :: s) →
    List.Chain' (fun u v => parentOf st v = some u) (y :: e) →
    x ≠ y → walkCommon (x :: s) (y :: e) = [] := by
  intro s
  induction s with
  | nil =>
    intro e x y _ _ hne
    cases e <;> simp [walkCommon, hne]
  | cons x2 s2 ih =>
    intro e x y hcs hce hne
    cases e with
    | nil => simp [walkCommon, hne]
    | cons y2 e2 =>
      have hps : parentOf st x2 = some x := (List.chain'_cons.1 hcs).1
      have hpe : parentOf st y2 = some y := (List.chain'_cons.1 hce).1
      have hne2 : x2 ≠ y2 := by
        intro he
        rw [he, hpe] at hps
        exact hne (by cases hps; rfl)
      have := ih (List.chain'_cons.1 hcs).2 (List.chain'_cons.1 hce).2 hne2
      simp [walkCommon, hne] at this ⊢
      exact this

/-- On two parent chains the identity-filtered zip of `Walker.walk`
computes exactly the longest common prefix. -/
theorem walkCommon_eq_lcp {st : State} :
    ∀ {s e : List Nat},
    List.Chain' (fun u v => parentOf st v = some u) s →
    List.Chain' (fun u v => parentOf st v = some u) e →
    walkCommon s e = lcp s e := by
  intro s
  induction s with
  | nil => intro e _ _; cases e <;> rfl
  | cons x s2 ih =>
    intro e hcs hce
    cases e with
    | nil => rfl
    | cons y e2 =>
      by_cases hxy : x = y
      · subst hxy
        have := ih hcs.tail hce.tail
        simp [walkCommon, lcp] at this ⊢
        exact this
      · rw [walkCommon_nil_of_ne hcs hce hxy]
        simp [lcp, hxy]

theorem drop_pre_getLast {α : Type} {c sT : List α} {lca : α}
    (hl : c.getLast? = some lca) :
    (c ++ sT).drop (c.length - 1) = lca :: sT := by
  obtain ⟨d, rfl⟩ : ∃ d, c = d ++ [lca] :=
    ⟨c.dropLast, (List.dropLast_append_getLast? lca (by simp [hl])).symm⟩
  rw [List.append_assoc]
  have hlen : (d ++ [lca]).length - 1 = d.length := by simp
  rw [hlen, List.drop_left]
  rfl

theorem drop_post_getLast {α : Type} {c eT : List α} {lca : α}
    (hl : c.getLast? = some lca) :
    (c ++ eT).drop ((c.length - 1) + 1) = eT := by
  have hne : c ≠ [] := by
    intro h
    rw [h] at hl
    simp at hl
  have hlen : (c.length - 1) + 1 = c.length := by
    cases c with
    | nil => exact absurd rfl hne
    | cons x t => simp
  rw [hlen, List.drop_left]

/-- Full characterization of a same-tree walk: the common part is the
longest common path prefix, `up` climbs from `start`'s parent to the
LCA, `down` descends from below the LCA to `end`. -/
theorem walk_spec {st : State} (hw : WF st) (a b : Nat)
    (hr : rootOf st a = rootOf st b)
    {sT eT : List Nat} {lca : Nat}
    (hs : path st a = lcp (path st a) (path st b) ++ sT)
    (he : path st b = lcp (path st a) (path st b) ++ eT)
    (hl : (lcp (path st a) (path st b)).getLast? = some lca) :
    walk st a b = Except.ok (((lca :: sT).dropLast).reverse, eT) := by
  set c := lcp (path st a) (path st b) with hcdef
  have hcl : walkCommon (path st a) (path st b) = c :=
    walkCommon_eq_lcp (hw.path_chain a) (hw.path_chain b)
  have hup : (path st a).drop (c.length - 1) = lca :: sT := by
    rw [hs]
    exact drop_pre_getLast hl
  have hdown : (path st b).drop ((c.length - 1) + 1) = eT := by
    rw [he]
    exact drop_post_getLast hl
  have hglast : (path st a).getLast? = some a := hw.path_getLast a
  have hglastb : (path st b).getLast? = some b := hw.path_getLast b
  have haup : (a = lca) ↔ sT = [] := by
    constructor
    · intro he2
      by_contra hne
      have h1 : (path st a).getLast? = sT.getLast? := by
        rw [hs]
        exact List.getLast?_append_of_ne_nil _ hne
      have hmem : a ∈ sT := by
        rw [h1] at hglast
        exact mem_of_getLast_some hglast
      have hmem2 : a ∈ c := by
        have h0 := mem_of_getLast_some hl
        rwa [← he2] at h0
      have hnd := hw.path_nodup a
      rw [hs, List.nodup_append] at hnd
      exact hnd.2.2 hmem2 hmem
    · intro he2
      subst he2
      have h2 : (path st a).getLast? = some lca := by
        rw [hs]
        simp [hl]
      rw [h2] at hglast
      cases hglast
      rfl
  have hbdown : (b = lca) ↔ eT = [] := by
    constructor
    · intro he2
      by_contra hne
      have h1 : (path st b).getLast? = eT.getLast? := by
        rw [he]
        exact List.getLast?_append_of_ne_nil _ hne
      have hmem : b ∈ eT := by
        rw [h1] at hglastb
        exact mem_of_getLast_some hglastb
      have hmem2 : b ∈ c := by
        have h0 := mem_of_getLast_some hl
        rwa [← he2] at h0
      have hnd := hw.path_nodup b
      rw [he, List.nodup_append] at hnd
      exact hnd.2.2 hmem2 hmem
    · intro he2
      subst he2
      have h2 : (path st b).getLast? = some lca := by
        rw [he]
        simp [hl]
      rw [h2] at hglastb
      cases hglastb
      rfl
  have hhead : c.head? = some (rootOf st a) := by
    have hne : c ≠ [] := by
      intro hnil
      rw [hnil] at hl
      simp at hl
    obtain ⟨ch, ct, hct⟩ := List.exists_cons_of_ne_nil hne
    have hsh : (path st a).head? = some ch := by
      rw [hs, hct]
      rfl
    have hrt : rootOf st a = ch := by
      unfold rootOf
      cases hpa : path st a with
      | nil => exact absurd hpa (path_ne_nil st a)
      | cons z zs =>
        rw [hpa] at hsh
        simp at hsh
        simp [hsh]
    rw [hct, hrt]
    rfl
  unfold walk
  rw [if_neg (by simp [hr]), hcl, hl]
  dsimp only
  rw [if_neg (by simp [hhead])]
  by_cases ha : a = lca
  · rw [if_pos ha]
    have hsT : sT = [] := haup.1 ha
    subst hsT
    by_cases hb : b = lca
    · rw [if_pos hb]
      have heT : eT = [] := hbdown.1 hb
      subst heT
      rfl
    · rw [if_neg hb, hdown]
      simp
  · rw [if_neg ha]
    have hsT : sT ≠ [] := fun he2 => ha (haup.2 he2)
    rw [hup]
    by_cases hb : b = lca
    · rw [if_pos hb]
      have heT : eT = [] := hbdown.1 hb
      subst heT
      rfl
    · rw [if_neg hb, hdown]

theorem walk_self {st : State} (hw : WF st) (x : Nat) :
    walk st x x = Except.ok ([], []) := by
  have h1 : path st x = lcp (path st x) (path st x) ++ [] := by
    rw [lcp_self]
    simp
  have h3 : (lcp (path st x) (path st x)).getLast? = some x := by
    rw [lcp_self]
    exact hw.path_getLast x
  have h := walk_spec hw x x rfl h1 h1 h3
  rw [h]
  simp

theorem walk_err_iff (st : State) (a b : Nat) :
    walk st a b = Except.error WErr.walkError ↔ rootOf st a ≠ rootOf st b := by
  constructor
  · intro h
    by_contra hr
    unfold walk at h
    rw [if_neg (by simp [hr])] at h
    cases hgl : (walkCommon (path st a) (path st b)).getLast? with
    | none =>
      rw [hgl] at h
      simp at h
    | some last =>
      rw [hgl] at h
      dsimp only at h
      by_cases hh : (walkCommon (path st a) (path st b)).head? ≠ some (rootOf st a)
      · rw [if_pos hh] at h
        simp at h
      · rw [if_neg hh] at h
        simp at h
  · intro h
    unfold walk
    rw [if_pos h]

/-! ## Resolver lemmas -/

/-- Empty path and `.` resolve to the starting node in `get`, while
`glob` runs `parts[0]` into an empty list (IndexError). -/
theorem resolver_empty_dot (st : State) (n : Nat) :
    resolverGet st n "" = Except.ok (some n) ∧
    resolverGet st n "." = Except.ok (some n) ∧
    resolverGlob st n "" = Except.error ResErr.idxErr ∧
    resolverGlob st n "." = Except.error ResErr.idxErr :=
  ⟨rfl, rfl, rfl, rfl⟩

/-- `..` at a root: `get` silently turns the current node into the
missing value; only a later dereference fails, and then with the
attribute fault, not with a ResolverError. -/
theorem get_dotdot_at_root {st : State} {n : Nat} (hp : parentOf st n = none) :
    resolverGet st n ".." = Except.ok none ∧
    resolverGet st n "../." = Except.ok none ∧
    resolverGet st n "../.." = Except.error ResErr.attrErr ∧
    resolverGet st n "../a" = Except.error ResErr.attrErr ∧
    (∀ rest, getGo st (".." :: rest) (some n) = getGo st rest none) := by
  refine ⟨?_, ?_, ?_, ?_, fun rest => by
    show getGo st rest (parentOf st n) = getGo st rest none
    rw [hp]⟩
  · show Except.ok (parentOf st n) = Except.ok none
    rw [hp]
  · show Except.ok (parentOf st n) = Except.ok none
    rw [hp]
  · show getGo st [".."] (parentOf st n) = Except.error ResErr.attrErr
    rw [hp]
    rfl
  · show getGo st ["a"] (parentOf st n) = Except.error ResErr.attrErr
    rw [hp]
    rfl

theorem globLoop_no_match {part : String} {recur : Option (Nat → Except ResErr (List Nat))} :
    ∀ {l : List (String × Nat)} (ms : List Nat),
    (∀ q ∈ l, rmatch q.1 part = false) →
    globLoop part recur l ms = Except.ok ms := by
  intro l
  induction l with
  | nil => intro ms _; rfl
  | cons q t ih =>
    intro ms h
    obtain ⟨nm0, child⟩ := q
    have h0 : rmatch nm0 part = false := h _ (List.mem_cons_self _ _)
    simp only [globLoop, h0, Bool.false_eq_true, if_false]
    exact ih ms (fun q hq => h q (List.mem_cons_of_mem _ hq))

/-- A wildcard segment never lets a ResolverError out of the child
loop: those are exactly the swallowed exceptions. -/
theorem globLoop_swallow {part : String} {recur : Option (Nat → Except ResErr (List Nat))}
    (hw : isWildcard part = true) :
    ∀ {l : List (String × Nat)} {ms : List Nat} {e : ResErr},
    globLoop part recur l ms = Except.error e →
    e ≠ ResErr.childErr ∧ e ≠ ResErr.resErr := by
  intro l
  induction l with
  | nil =>
    intro ms e h
    simp [globLoop] at h
  | cons q t ih =>
    intro ms e h
    obtain ⟨nm0, child⟩ := q
    by_cases hr : rmatch nm0 part
    · simp only [globLoop, hr, if_true] at h
      cases recur with
      | none => exact ih h
      | some f =>
        dsimp only at h
        cases hf : f child with
        | ok sub =>
          rw [hf] at h
          dsimp only at h
          exact ih h
        | error e2 =>
          rw [hf] at h
          dsimp only at h
          by_cases hcls : e2 = ResErr.childErr ∨ e2 = ResErr.resErr
          · rw [if_pos hcls, if_pos hw] at h
            exact ih h
          · rw [if_neg hcls] at h
            simp at h
            rw [← h]
            exact ⟨fun h1 => hcls (Or.inl h1), fun h1 => hcls (Or.inr h1)⟩
    · simp only [globLoop, hr, Bool.false_eq_true, if_false] at h
      exact ih h

/-- After skipping non-matching entries the loop continues unchanged. -/
theorem globLoop_skip {part : String} {recur : Option (Nat → Except ResErr (List Nat))} :
    ∀ {l1 l2 : List (String × Nat)} (ms : List Nat),
    (∀ q ∈ l1, rmatch q.1 part = false) →
    globLoop part recur (l1 ++ l2) ms = globLoop part recur l2 ms := by
  intro l1
  induction l1 with
  | nil => intro l2 ms _; rfl
  | cons q t ih =>
    intro l2 ms h
    obtain ⟨nm0, child⟩ := q
    have h0 : rmatch nm0 part = false := h _ (List.mem_cons_self _ _)
    simp only [List.cons_append, globLoop, h0, Bool.false_eq_true, if_false]
    exact ih ms (fun q hq => h q (List.mem_cons_of_mem _ hq))


theorem isWildcard_ne {part : String} (h : isWildcard part = true) :
    part ≠ ".." ∧ part ≠ "" ∧ part ≠ "." := by
  refine ⟨?_, ?_, ?_⟩ <;> intro he <;> subst he <;> exact absurd h (by decide)

theorem globGo_name {st : State} {part : String} {rest : List String} {n : Nat}
    (h1 : part ≠ "..") (h23 : ¬(part = "" ∨ part = ".")) :
    globGo st (part :: rest) (some n) =
      (match globLoop part
          (if rest.isEmpty then none
            else some (fun child => globGo st rest (some child))) (nodemap st n) [] with
      | Except.error e => Except.error e
      | Except.ok ms =>
        if ms.isEmpty && !(isWildcard part) then Except.error ResErr.childErr
        else Except.ok ms) := by
  simp only [globGo, if_neg h1, if_neg h23]

/-- Claim C8 part: a wildcard segment matching no child yields `[]`
without an error, whatever the remaining segments are. -/
theorem glob_wildcard_empty {st : State} {part : String} {rest : List String} {n : Nat}
    (hw : isWildcard part = true)
    (hnm : ∀ q ∈ nodemap st n, rmatch q.1 part = false) :
    globGo st (part :: rest) (some n) = Except.ok [] := by
  obtain ⟨hd1, hd2, hd3⟩ := isWildcard_ne hw
  rw [globGo_name hd1 (by simp [hd2, hd3])]
  rw [globLoop_no_match [] hnm]
  simp [hw]

/-- Claim C8 part: a non-wildcard segment matching no child raises
ChildResolverError. -/
theorem glob_nonwildcard_empty {st : State} {part : String} {rest : List String} {n : Nat}
    (hw : isWildcard part = false) (h1 : part ≠ "..") (h2 : part ≠ "") (h3 : part ≠ ".")
    (hnm : ∀ q ∈ nodemap st n, rmatch q.1 part = false) :
    globGo st (part :: rest) (some n) = Except.error ResErr.childErr := by
  rw [globGo_name h1 (by simp [h2, h3])]
  rw [globLoop_no_match [] hnm]
  simp [hw]

/-- Claim C8 part: under a wildcard segment no ResolverError class
error ever escapes — sub-resolution failures are swallowed. -/
theorem glob_wildcard_swallow {st : State} {part : String} {rest : List String} {n : Nat}
    (hw : isWildcard part = true) :
    globGo st (part :: rest) (some n) ≠ Except.error ResErr.childErr ∧
    globGo st (part :: rest) (some n) ≠ Except.error ResErr.resErr := by
  obtain ⟨hd1, hd2, hd3⟩ := isWildcard_ne hw
  rw [globGo_name hd1 (by simp [hd2, hd3])]
  cases hL : globLoop part
      (if rest.isEmpty then none
        else some (fun child => globGo st rest (some child))) (nodemap st n) [] with
  | error e =>
    have hsw := globLoop_swallow hw hL
    constructor <;> intro hcon <;> simp at hcon <;> [exact hsw.1 hcon; exact hsw.2 hcon]
  | ok ms =>
    simp [hw]

/-- Claim C8 part: under a non-wildcard segment whose unique match
fails below with a ResolverError, the error is re-raised unchanged. -/
theorem glob_nonwildcard_reraise {st : State} {part : String} {rest : List String}
    {n : Nat} {l1 l2 : List (String × Nat)} {nm0 : String} {c : Nat} {e : ResErr}
    (hw : isWildcard part = false) (h1 : part ≠ "..") (h2 : part ≠ "") (h3 : part ≠ ".")
    (hmap : nodemap st n = l1 ++ (nm0, c) :: l2)
    (hm : rmatch nm0 part = true)
    (hl1 : ∀ q ∈ l1, rmatch q.1 part = false)
    (hrest : rest ≠ [])
    (hrec : globGo st rest (some c) = Except.error e)
    (hcls : e = ResErr.childErr ∨ e = ResErr.resErr) :
    globGo st (part :: rest) (some n) = Except.error e := by
  obtain ⟨r, rs, rfl⟩ : ∃ r rs, rest = r :: rs := by
    cases rest with
    | nil => exact absurd rfl hrest
    | cons r rs => exact ⟨r, rs, rfl⟩
  rw [globGo_name h1 (by simp [h2, h3]), hmap]
  rw [show ((r :: rs : List String).isEmpty) = false from rfl]
  simp only [Bool.false_eq_true, if_false]
  rw [globLoop_skip [] hl1]
  simp only [globLoop, hm, if_true]
  rw [hrec]
  dsimp only
  rw [if_pos hcls]
  rw [if_neg (by simp [hw])]

/-! ## Claim theorems -/

/-- Claim C1, counterexample: with root 0 and child 1, the assignment
`1.parent = 1` raises LoopError, yet afterwards node 1 — whose stored
parent is still 0 — is no longer contained in node 0's children list:
the detach happened before the cycle check, so the tree is not left
unchanged. -/
theorem C1_cex :
    (setParent stA 1 (some 1)).err = some SErr.loopError ∧
    parentOf stA 1 = some 0 ∧
    1 ∈ childrenOf stA 0 ∧
    1 ∉ childrenOf (setParent stA 1 (some 1)).st 0 := by
  refine ⟨by decide, by decide, by decide, by decide⟩

/-- Claim C1, amended: a parent assignment that raises LoopError leaves
every stored parent reference unchanged; if the node was a root the
whole store is unchanged, but if it had a parent the node has already
been removed from that parent's children list (and nothing else
changed) before the check fires. -/
theorem C1_amended (st : State) (n : Nat) (v : Option Nat)
    (h : (setParent st n v).err = some SErr.loopError) :
    (∀ x, parentOf (setParent st n v).st x = parentOf st x) ∧
    (parentOf st n = none → (setParent st n v).st = st) ∧
    (∀ p, parentOf st n = some p →
      childrenOf (setParent st n v).st p = (childrenOf st p).erase n ∧
      ∀ q, q ≠ p → childrenOf (setParent st n v).st q = childrenOf st q) :=
  setParent_loop_state h

/-- Witness for the amended claim C1 at the concrete store `stA`. -/
theorem C1_amended_witness :
    childrenOf (setParent stA 1 (some 1)).st 0 = (childrenOf stA 0).erase 1 ∧
    parentOf (setParent stA 1 (some 1)).st 1 = parentOf stA 1 :=
  ⟨((C1_amended stA 1 (some 1) (by decide)).2.2 0 (by decide)).1,
    (C1_amended stA 1 (some 1) (by decide)).1 1⟩

/-- Claim C2: in a well-formed store, setting a node's parent to a
node `v` raises LoopError exactly when `v` is the node itself or the
node lies on `v`'s path to the root; for every other `v` the assignment
completes without raising. -/
theorem C2_loop_iff (st : State) (hw : WF st) (n v : Nat) :
    (setParent st n (some v)).err =
      (if v = n ∨ n ∈ path st v then some SErr.loopError else none) :=
  setParent_some_err_eq hw n v

/-- Witness for claim C2: attaching the root 0 below its own child 1
raises LoopError, while attaching a fresh node 2 below 0 does not. -/
theorem C2_loop_iff_witness :
    (setParent stA 0 (some 1)).err = some SErr.loopError ∧
    (setParent stA 2 (some 0)).err = none := by
  constructor
  · rw [C2_loop_iff stA (by decide) 0 1]
    decide
  · rw [C2_loop_iff stA (by decide) 2 0]
    decide

/-- Claim C3, counterexample: node 0 has children `[1, 2]`; nodes 0 and
1 are distinct and 0 is not a descendant of 1, yet after `1.parent = 0`
(a no-op, since 0 is already the parent) node 1 is not the last entry
of 0's children — it was not appended as the last child. -/
theorem C3_cex :
    (0 : Nat) ≠ 1 ∧
    1 ∉ path stB 0 ∧
    (setParent stB 1 (some 0)).err = none ∧
    childrenOf (setParent stB 1 (some 0)).st 0 = [1, 2] ∧
    (childrenOf (setParent stB 1 (some 0)).st 0).getLast? = some 2 := by
  refine ⟨by decide, by decide, by decide, by decide, by decide⟩

/-- Claim C3, amended: for distinct nodes with `a` not a descendant of
`b`, `b.parent = a` succeeds, puts `a` on `b`'s path, makes `b` a member
of `a.children` — appended as the last child whenever `a` was not
already `b`'s parent — and the subsequent `b.parent = None` makes `b` a
root that is no longer a member of `a.children`. -/
theorem C3_amended (st : State) (hw : WF st) (a b : Nat)
    (hab : a ≠ b) (hnd : b ∉ path st a) :
    (setParent st b (some a)).err = none ∧
    parentOf (setParent st b (some a)).st b = some a ∧
    a ∈ path (setParent st b (some a)).st b ∧
    b ∈ childrenOf (setParent st b (some a)).st a ∧
    (parentOf st b ≠ some a →
      childrenOf (setParent st b (some a)).st a = childrenOf st a ++ [b]) ∧
    (setParent (setParent st b (some a)).st b none).err = none ∧
    parentOf (setParent (setParent st b (some a)).st b none).st b = none ∧
    b ∉ childrenOf (setParent (setParent st b (some a)).st b none).st a :=
  setParent_attach_then_detach hw hab hnd

/-- Witness for the amended claim C3 at the concrete store `stA`,
attaching the fresh node 2 below node 1 and detaching it again. -/
theorem C3_amended_witness :
    (setParent stA 2 (some 1)).err = none ∧
    1 ∈ path (setParent stA 2 (some 1)).st 2 ∧
    2 ∈ childrenOf (setParent stA 2 (some 1)).st 1 ∧
    childrenOf (setParent stA 2 (some 1)).st 1 = childrenOf stA 1 ++ [2] ∧
    (setParent (setParent stA 2 (some 1)).st 2 none).err = none ∧
    2 ∉ childrenOf (setParent (setParent stA 2 (some 1)).st 2 none).st 1 := by
  have h := C3_amended stA (by decide) 1 2 (by decide) (by decide)
  exact ⟨h.1, h.2.2.1, h.2.2.2.1, h.2.2.2.2.1 (by decide), h.2.2.2.2.2.1,
    h.2.2.2.2.2.2.2⟩

/-- Claim C4: for nodes with the same root, `walk` succeeds and returns
`up` = the nodes strictly between `start` (exclusive) and the LCA — the
last element of the longest common prefix of the two paths —
(inclusive), ordered from `start`'s parent upward, and `down` = the
nodes strictly between the LCA (exclusive) and `end` (inclusive),
ordered downward; `walk x x = ([], [])`; and `walk` raises WalkError
exactly when the roots differ. -/
theorem C4_walk (st : State) (hw : WF st) (a b : Nat) :
    (∀ (sT eT : List Nat) (lca : Nat),
      rootOf st a = rootOf st b →
      path st a = lcp (path st a) (path st b) ++ sT →
      path st b = lcp (path st a) (path st b) ++ eT →
      (lcp (path st a) (path st b)).getLast? = some lca →
      walk st a b = Except.ok (((lca :: sT).dropLast).reverse, eT)) ∧
    walk st a a = Except.ok ([], []) ∧
    (walk st a b = Except.error WErr.walkError ↔ rootOf st a ≠ rootOf st b) :=
  ⟨fun sT eT lca hr hs he hl => walk_spec hw a b hr hs he hl,
    walk_self hw a,
    walk_err_iff st a b⟩

/-- Witness for claim C4 on the tree `0 → {1, 2}`: walking from 1 to 2
goes up through the root 0 (the LCA) and down to 2, and `walk 1 1`
returns two empty sequences. -/
theorem C4_walk_witness :
    walk stB 1 2 = Except.ok ([0], [2]) ∧
    walk stB 1 1 = Except.ok ([], []) := by
  have h := C4_walk stB (by decide) 1 2
  have h2 := C4_walk stB (by decide) 1 1
  exact ⟨(h.1 [1] [2] 0 (by decide) (by decide) (by decide) (by decide)).trans rfl,
    h2.2.1⟩

/-- Claim C5, counterexample: on a single root node, `get(root, "..")`
returns the missing value without raising anything — not a
ResolverError — and `get(root, "../..")` then fails with the attribute
fault, an error that is not a ResolverError. -/
theorem C5_cex :
    resolverGet stR 0 ".." = Except.ok none ∧
    resolverGet stR 0 "../.." = Except.error ResErr.attrErr :=
  ⟨rfl, rfl⟩

/-- Claim C5, amended: `..` at a root does not raise ResolverError; the
resolver silently carries the missing parent onward: a trailing `..`
returns it as the result, `.` and empty segments pass it along, and a
following `..` or name segment fails with AttributeError. -/
theorem C5_amended (st : State) (n : Nat) (hp : parentOf st n = none) :
    resolverGet st n ".." = Except.ok none ∧
    resolverGet st n "../." = Except.ok none ∧
    resolverGet st n "../.." = Except.error ResErr.attrErr ∧
    resolverGet st n "../a" = Except.error ResErr.attrErr ∧
    (∀ rest, getGo st (".." :: rest) (some n) = getGo st rest none) :=
  get_dotdot_at_root hp

/-- Witness for the amended claim C5 at the single root store `stR`. -/
theorem C5_amended_witness :
    resolverGet stR 0 "../." = Except.ok none ∧
    resolverGet stR 0 "../a" = Except.error ResErr.attrErr := by
  have h := C5_amended stR 0 (by decide)
  exact ⟨h.2.1, h.2.2.2.1⟩

/-- Claim C6, counterexample: `glob` on the empty path or `.` does not
return the starting node — `__glob` indexes `parts[0]` of an empty
segment list and fails with IndexError. -/
theorem C6_cex :
    resolverGlob stR 0 "" = Except.error ResErr.idxErr ∧
    resolverGlob stR 0 "." = Except.error ResErr.idxErr :=
  ⟨rfl, rfl⟩

/-- Claim C6, amended: for every node and resolver, `get` on the empty
path or `.` returns the starting node, while `glob` on those paths
raises IndexError from the `parts[0]` access in `__glob`. -/
theorem C6_amended (st : State) (n : Nat) :
    resolverGet st n "" = Except.ok (some n) ∧
    resolverGet st n "." = Except.ok (some n) ∧
    resolverGlob st n "" = Except.error ResErr.idxErr ∧
    resolverGlob st n "." = Except.error ResErr.idxErr :=
  resolver_empty_dot st n

/-- Claim C7: the wildcard translation does not exclude the separator:
`*` becomes `.*` and `?` becomes `.`, so a name containing `/` in a
position covered by `*` or `?` is matched, contradicting both the claim
and the docstring of `glob`; `?` does consume exactly one character. -/
theorem C7_translate_sep :
    rmatch "a/b" "*" = true ∧
    rmatch "x/y" "x?y" = true ∧
    rmatch "ab" "a?b" = false :=
  ⟨rfl, rfl, rfl⟩

/-- Claim C8: a wildcard segment matching zero children yields `[]`
without raising while a non-wildcard one raises ChildResolverError, and
a ResolverError from sub-resolution under a matched child is swallowed
for a wildcard segment but re-raised verbatim for a non-wildcard one. -/
theorem C8_glob_matching (st : State) (part : String) (rest : List String) (n : Nat) :
    (isWildcard part = true →
      (∀ q ∈ nodemap st n, rmatch q.1 part = false) →
      globGo st (part :: rest) (some n) = Except.ok []) ∧
    (isWildcard part = false → part ≠ ".." → part ≠ "" → part ≠ "." →
      (∀ q ∈ nodemap st n, rmatch q.1 part = false) →
      globGo st (part :: rest) (some n) = Except.error ResErr.childErr) ∧
    (isWildcard part = true →
      globGo st (part :: rest) (some n) ≠ Except.error ResErr.childErr ∧
      globGo st (part :: rest) (some n) ≠ Except.error ResErr.resErr) ∧
    (∀ (l1 l2 : List (String × Nat)) (nm0 : String) (c : Nat) (e : ResErr),
      isWildcard part = false → part ≠ ".." → part ≠ "" → part ≠ "." →
      nodemap st n = l1 ++ (nm0, c) :: l2 →
      rmatch nm0 part = true →
      (∀ q ∈ l1, rmatch q.1 part = false) →
      rest ≠ [] →
      globGo st rest (some c) = Except.error e →
      (e = ResErr.childErr ∨ e = ResErr.resErr) →
      globGo st (part :: rest) (some n) = Except.error e) :=
  ⟨fun hw hnm => glob_wildcard_empty hw hnm,
    fun hw h1 h2 h3 hnm => glob_nonwildcard_empty hw h1 h2 h3 hnm,
    fun hw => glob_wildcard_swallow hw,
    fun l1 l2 nm0 c e hw h1 h2 h3 hmap hm hl1 hrest hrec hcls =>
      glob_nonwildcard_reraise hw h1 h2 h3 hmap hm hl1 hrest hrec hcls⟩

/-- Witness for claim C8 on the store `stT`: a non-matching wildcard
gives `[]`, a non-matching literal raises ChildResolverError, a
wildcard with failing sub-resolutions returns without a
ChildResolverError, and a literal whose single match fails below
re-raises the ChildResolverError. -/
theorem C8_glob_matching_witness :
    globGo stT ["z*"] (some 0) = Except.ok [] ∧
    globGo stT ["zzz"] (some 0) = Except.error ResErr.childErr ∧
    globGo stT ["*", "zzz"] (some 0) ≠ Except.error ResErr.childErr ∧
    globGo stT ["sub1", "zzz"] (some 0) = Except.error ResErr.childErr := by
  refine ⟨?_, ?_, ?_, ?_⟩
  · exact (C8_glob_matching stT "z*" [] 0).1 (by decide) (by decide)
  · exact (C8_glob_matching stT "zzz" [] 0).2.1 (by decide) (by decide) (by decide)
      (by decide) (by decide)
  · exact ((C8_glob_matching stT "*" ["zzz"] 0).2.2.1 (by decide)).1
  · exact (C8_glob_matching stT "sub1" ["zzz"] 0).2.2.2 [("sub0", 1)] [] "sub1" 2
      ResErr.childErr (by decide) (by decide) (by decide) (by decide) (by decide)
      (by decide) (by decide) (by decide) rfl (by decide)

/-- Claim C9: re-assigning a node's parent to its current value — node
or no parent — fires no lifecycle hook and changes no node's parent or
children sequence. -/
theorem C9_noop (st : State) (b : Nat) :
    (setParent st b (parentOf st b)).err = none ∧
    (setParent st b (parentOf st b)).hooks = [] ∧
    (∀ x, parentOf (setParent st b (parentOf st b)).st x = parentOf st x) ∧
    (∀ x, childrenOf (setParent st b (parentOf st b)).st x = childrenOf st x) :=
  setParent_keep st b

/-- Claim C10: whenever a parent assignment raises LoopError, reading
the node's parent afterwards returns exactly the value it had before:
the stored field is written only on the non-raising paths. -/
theorem C10_loop_parent_unchanged (st : State) (n : Nat) (v : Option Nat)
    (h : (setParent st n v).err = some SErr.loopError) :
    parentOf (setParent st n v).st n = parentOf st n :=
  (setParent_loop_state h).1 n

/-- Witness for claim C10 at the concrete store `stB`. -/
theorem C10_loop_parent_unchanged_witness :
    parentOf (setParent stB 1 (some 1)).st 1 = parentOf stB 1 :=
  C10_loop_parent_unchanged stB 1 (some 1) (by decide)
